import Mathlib

/- Verification of the docs-index-keeper index synchronization engine
   (src/index.ts of the repository).  Strings are modelled as lists of
   characters; the file system is modelled as an association list from
   full paths to file contents.  JavaScript peculiarities that matter to
   the behaviour are modelled explicitly: nullish coalescing and
   truthiness of the staged override, indexOf returning minus one,
   indexOf with a negative fromIndex searching from zero, and regular
   expression matching by an explicit leftmost matcher. -/

abbrev Str := List Char

/- Whitespace as matched by JavaScript trim and the regex class. -/
def jsWs (c : Char) : Bool :=
  c == ' ' || c == '\t' || c == '\n' || c == '\r' || c == '\x0b' || c == '\x0c'

def jsTrim (s : Str) : Str :=
  ((s.dropWhile jsWs).reverse.dropWhile jsWs).reverse

/- JavaScript String.split with separator a single newline. -/
def splitLines : Str → List Str
  | [] => [[]]
  | c :: rest =>
    if c = '\n' then [] :: splitLines rest
    else
      match splitLines rest with
      | [] => [[c]]
      | l :: ls => (c :: l) :: ls

/- First index at which pat occurs as a substring of s, none when absent. -/
def indexOfSub : Str → Str → Option Nat
  | [], pat => if pat.isPrefixOf ([] : Str) then some 0 else none
  | c :: rest, pat =>
    if pat.isPrefixOf (c :: rest) then some 0
    else (indexOfSub rest pat).map (fun i => i + 1)

/- JavaScript String.indexOf, with minus one for absence. -/
def jsIndexOf (s pat : Str) : Int :=
  match indexOfSub s pat with
  | some i => (i : Int)
  | none => -1

/- JavaScript String.indexOf with a fromIndex argument: a negative or
   out-of-range fromIndex is clamped into the string. -/
def jsIndexOfFrom (s pat : Str) (start : Int) : Int :=
  let st := min start.toNat s.length
  match indexOfSub (s.drop st) pat with
  | some i => ((st + i : Nat) : Int)
  | none => -1

/- JavaScript Array.join with a newline separator. -/
def joinNl : List Str → Str
  | [] => []
  | [l] => l
  | l :: ls => l ++ '\n' :: joinNl ls

/- A list of newline-free lines, each terminated by a newline. -/
def flatJoin : List Str → Str
  | [] => []
  | l :: ls => l ++ '\n' :: flatJoin ls

structure DocsIndexKeeperConfig where
  indexFile : Str
  docsDir : Str
  exclude : List Str
  allowedRootMd : List Str
  warnRootMd : Bool
deriving DecidableEq

structure IndexRow where
  title : Str
  path : Str
  purpose : Option Str
deriving DecidableEq

abbrev FS := List (Str × Str)

def fsLookup : FS → Str → Option Str
  | [], _ => none
  | (q, c) :: rest, p => if q = p then some c else fsLookup rest p

def fsExists (fs : FS) (p : Str) : Bool := (fsLookup fs p).isSome

def fsRead (fs : FS) (p : Str) : Str := (fsLookup fs p).getD []

def fsWrite : FS → Str → Str → FS
  | [], p, c => [(p, c)]
  | (q, d) :: rest, p, c => if q = p then (q, c) :: rest else (q, d) :: fsWrite rest p c

def joinPath (root p : Str) : Str := root ++ '/' :: p

def mdFilter (s : Str) : Bool := (".md").data.isSuffixOf s

def stagedFrom (raw : Str) : List Str :=
  ((splitLines raw).map jsTrim).filter mdFilter

/- getStagedMdFiles from src/index.ts.  The first component is the list of
   staged markdown files; the second records whether the external git query
   was performed.  The source checks the explicit override, then the
   environment override, with nullish coalescing, and a chosen override is
   used only when it is truthy, that is a non-empty string. -/
def getStagedMdFiles (ov env : Option Str) (gitOut : Str) : List Str × Bool :=
  match (match ov with | some s => some s | none => env) with
  | some raw => if raw.isEmpty then (stagedFrom gitOut, true) else (stagedFrom raw, false)
  | none => (stagedFrom gitOut, true)

def excludedRel (exclude : List Str) (rel : Str) : Bool :=
  exclude.any (fun e => rel == e || e.isPrefixOf rel)

def stagedDocPred (cfg : DocsIndexKeeperConfig) (p : Str) : Bool :=
  (cfg.docsDir ++ ['/']).isPrefixOf p &&
    !(excludedRel cfg.exclude (p.drop (cfg.docsDir.length + 1)))

/- getStagedDocs from src/index.ts: a filter over the staged paths; the
   kept elements are returned unchanged. -/
def getStagedDocs (staged : List Str) (cfg : DocsIndexKeeperConfig) : List Str :=
  staged.filter (stagedDocPred cfg)

/- One line matched against the heading pattern: one or more hash marks,
   at least one whitespace character, then at least one further character;
   the captured group is trimmed. -/
def headingOfLine (line : Str) : Option Str :=
  let hashes := line.takeWhile (fun c => c == '#')
  let s := line.drop hashes.length
  if hashes.isEmpty then none
  else
    match s with
    | [] => none
    | c :: _ =>
      if jsWs c && decide (2 ≤ s.length) then
        some (jsTrim (s.drop (min (s.takeWhile jsWs).length (s.length - 1))))
      else none

/- getFirstHeading from src/index.ts. -/
def getFirstHeading (fs : FS) (root filePath : Str) : Option Str :=
  match fsLookup fs (joinPath root filePath) with
  | none => none
  | some content => (splitLines content).findSome? headingOfLine

def pipeStart (line : Str) : Bool := (['|'] : Str).isPrefixOf line

/- The table-entry test of parseTable: the line starts with a pipe and
   contains a pipe anywhere. -/
def tableStart (line : Str) : Bool := pipeStart line && line.contains '|'

/- Leftmost match of the link-cell pattern: a pipe, optional whitespace,
   a bracketed title, a parenthesized path, optional whitespace, a pipe.
   Each greedy step of the original regular expression is forced, so the
   sequential matcher below is equivalent to it.  The matcher at one
   position is split into one helper per consumed token. -/

def linkStep4 (title path : Str) : Str → Option (Str × Str)
  | [] => none
  | c :: _ => if c = '|' then some (title, path) else none

def linkStep3b (title path : Str) : Str → Option (Str × Str)
  | [] => none
  | c :: r3 => if c = ')' then linkStep4 title path (r3.dropWhile jsWs) else none

def linkStep3 (title : Str) (r2 : Str) : Option (Str × Str) :=
  let path := r2.takeWhile (fun c => !(c == ')'))
  if path.isEmpty then none
  else linkStep3b title path (r2.dropWhile (fun c => !(c == ')')))

def linkStep2b (title : Str) : Str → Option (Str × Str)
  | c1 :: c2 :: r2 => if c1 = ']' ∧ c2 = '(' then linkStep3 title r2 else none
  | _ => none

def linkStep2 (r1 : Str) : Option (Str × Str) :=
  let title := r1.takeWhile (fun c => !(c == ']'))
  if title.isEmpty then none
  else linkStep2b title (r1.dropWhile (fun c => !(c == ']')))

def linkAfterPipe : Str → Option (Str × Str)
  | [] => none
  | c :: r1 => if c = '[' then linkStep2 r1 else none

def matchLinkAt : Str → Option (Str × Str)
  | [] => none
  | c0 :: r0 => if c0 = '|' then linkAfterPipe (r0.dropWhile jsWs) else none

def findLinkMatch : Str → Option (Str × Str)
  | [] => none
  | c :: rest =>
    match matchLinkAt (c :: rest) with
    | some r => some r
    | none => findLinkMatch rest

/- The line scan of parseTable from src/index.ts. -/
def parseTableGo : List Str → Bool → List IndexRow → List IndexRow
  | [], _, rows => rows
  | line :: rest, inTable, rows =>
    if tableStart line then
      match findLinkMatch line with
      | some (t, p) => parseTableGo rest true (rows ++ [⟨t, p, none⟩])
      | none => parseTableGo rest true rows
    else if inTable && !(pipeStart (jsTrim line)) then rows
    else parseTableGo rest inTable rows

def parseTable (content : Str) : List IndexRow :=
  parseTableGo (splitLines content) false []

/- Removal of a trailing md extension. -/
def stripMd (q : Str) : Str :=
  if (".md").data.isSuffixOf q then q.take (q.length - 3) else q

/- Replacement of the anchored docsDir prefix, as done with a regular
   expression built from the configured docsDir. -/
def stripDocsPrefix (docsDir p : Str) : Str :=
  if (docsDir ++ ['/']).isPrefixOf p then p.drop (docsDir.length + 1) else p

def humanize (t : Str) : Str := t.map (fun c => if c = '-' then ' ' else c)

/- The purpose of a new row: the first heading of the file when present
   and non-empty, the humanized title otherwise.  The source uses the
   JavaScript or-operator, so an empty heading also falls back. -/
def rowPurpose (fs : FS) (root p : Str) (titleFromPath : Str) : Str :=
  match getFirstHeading fs root p with
  | some h => if h.isEmpty then titleFromPath else h
  | none => titleFromPath

/- computeNewRows from src/index.ts, with the mutable seen-set threaded
   explicitly. -/
def computeNewRowsGo (fs : FS) (root : Str) (cfg : DocsIndexKeeperConfig) :
    List Str → List Str → List IndexRow
  | [], _ => []
  | p :: rest, existingPaths =>
    let path := stripDocsPrefix cfg.docsDir p
    if existingPaths.contains path then
      computeNewRowsGo fs root cfg rest existingPaths
    else
      let title := stripMd path
      ⟨title, path, some (rowPurpose fs root p (humanize title))⟩ ::
        computeNewRowsGo fs root cfg rest (path :: existingPaths)

def computeNewRows (fs : FS) (root : Str) (stagedDocs existingPaths : List Str)
    (cfg : DocsIndexKeeperConfig) : List IndexRow :=
  computeNewRowsGo fs root cfg stagedDocs existingPaths

/- The rendered purpose cell: the purpose when present, nullish-coalesced
   to the title. -/
def purposeOf (r : IndexRow) : Str :=
  match r.purpose with | some u => u | none => r.title

def renderRow (r : IndexRow) : Str :=
  ("| [").data ++ r.title ++ ("](").data ++ r.path ++ (") | ").data ++
    purposeOf r ++ (" |").data

def defaultSentinel : Str := ("| [archive/]").data

def headerRow : Str := ("| Doc | Purpose |").data

def nlnl : Str := ['\n', '\n']

/- The insertion offset of insertRows: the sentinel when present, else the
   first blank-line pair searched from the position of the header row,
   where an absent header yields fromIndex minus one which JavaScript
   clamps to zero, else the end of the document. -/
def insertOffset (readme sentinelPattern : Str) : Int :=
  let i0 := jsIndexOf readme sentinelPattern
  let i1 := if i0 == -1 then jsIndexOfFrom readme nlnl (jsIndexOf readme headerRow) else i0
  if i1 == -1 then (readme.length : Int) else i1

/- insertRows from src/index.ts. -/
def insertRows (readme : Str) (newRows : List IndexRow) (sentinelPattern : Str) : Str :=
  let newLines := newRows.map renderRow
  let idx := (insertOffset readme sentinelPattern).toNat
  readme.take idx ++ joinNl newLines ++ '\n' :: readme.drop idx

structure UpdateResult where
  updated : Bool
  added : List IndexRow
deriving DecidableEq

/- update from src/index.ts.  The console warning side channel of
   warnRootMd touches no state and is omitted.  The second component of
   the result is the file system after the call. -/
def update (fs : FS) (root : Str) (cfg : DocsIndexKeeperConfig) (ov env : Option Str)
    (gitOut : Str) : UpdateResult × FS :=
  let indexPath := joinPath root cfg.indexFile
  let staged := (getStagedMdFiles ov env gitOut).1
  if staged.isEmpty then (⟨false, []⟩, fs)
  else
    let stagedDocs := getStagedDocs staged cfg
    if stagedDocs.isEmpty then (⟨false, []⟩, fs)
    else if !(fsExists fs indexPath) then (⟨false, []⟩, fs)
    else
      let readme := fsRead fs indexPath
      let existingPaths := (parseTable readme).map (fun r => r.path)
      let toAdd := computeNewRows fs root stagedDocs existingPaths cfg
      if toAdd.isEmpty then (⟨false, []⟩, fs)
      else (⟨true, toAdd⟩, fsWrite fs indexPath (insertRows readme toAdd defaultSentinel))

/- check from src/index.ts.  It performs no write; the file system is
   returned unchanged to state the frame property. -/
def check (fs : FS) (root : Str) (cfg : DocsIndexKeeperConfig) (ov env : Option Str)
    (gitOut : Str) : Bool × FS :=
  let indexPath := joinPath root cfg.indexFile
  let staged := (getStagedMdFiles ov env gitOut).1
  let stagedDocs := getStagedDocs staged cfg
  if stagedDocs.isEmpty || !(fsExists fs indexPath) then (true, fs)
  else
    let readme := fsRead fs indexPath
    let existingPaths := (parseTable readme).map (fun r => r.path)
    (stagedDocs.all (fun p => existingPaths.contains (stripDocsPrefix cfg.docsDir p)), fs)

/- Modelled from the claim wording of the table parser: a variant whose
   entry test requires the line to start with a pipe and to contain at
   least one more pipe after the first character. -/
def tableStartTwoPipes (line : Str) : Bool :=
  pipeStart line && (line.drop 1).contains '|'

def parseTableGoTwoPipes : List Str → Bool → List IndexRow → List IndexRow
  | [], _, rows => rows
  | line :: rest, inTable, rows =>
    if tableStartTwoPipes line then
      match findLinkMatch line with
      | some (t, p) => parseTableGoTwoPipes rest true (rows ++ [⟨t, p, none⟩])
      | none => parseTableGoTwoPipes rest true rows
    else if inTable && !(pipeStart (jsTrim line)) then rows
    else parseTableGoTwoPipes rest inTable rows

def parseTableTwoPipes (content : Str) : List IndexRow :=
  parseTableGoTwoPipes (splitLines content) false []

/- The rows extracted from a list of lines that are all scanned inside the
   table region. -/
def rowsOfLines (lns : List Str) : List IndexRow :=
  lns.filterMap (fun l => (findLinkMatch l).map (fun tp => ⟨tp.1, tp.2, none⟩))

/- Named components of an update or check invocation, abbreviating the
   intermediate values computed inside the two entry points. -/

def stagedOf (ov env : Option Str) (gitOut : Str) : List Str :=
  (getStagedMdFiles ov env gitOut).1

def docsOf (cfg : DocsIndexKeeperConfig) (ov env : Option Str) (gitOut : Str) : List Str :=
  getStagedDocs (stagedOf ov env gitOut) cfg

def indexPathOf (root : Str) (cfg : DocsIndexKeeperConfig) : Str :=
  joinPath root cfg.indexFile

def existingOf (fs : FS) (root : Str) (cfg : DocsIndexKeeperConfig) : List Str :=
  (parseTable (fsRead fs (indexPathOf root cfg))).map (fun r => r.path)

def toAddOf (fs : FS) (root : Str) (cfg : DocsIndexKeeperConfig) (ov env : Option Str)
    (gitOut : Str) : List IndexRow :=
  computeNewRows fs root (docsOf cfg ov env gitOut) (existingOf fs root cfg) cfg

/- Occurrence of a pattern at a position, used to characterize the
   insertion offset. -/
def occursAt (pat s : Str) (i : Nat) : Prop := pat <+: s.drop i

/- Well-behaved docs-relative path: paths of this shape render into table
   lines that the parser reads back verbatim. -/
def goodPath (q : Str) : Prop :=
  stripMd q ≠ [] ∧ ']' ∉ q ∧ ')' ∉ q ∧ '\n' ∉ q

instance decGoodPath (q : Str) : Decidable (goodPath q) :=
  decidable_of_iff (stripMd q ≠ [] ∧ ']' ∉ q ∧ ')' ∉ q ∧ '\n' ∉ q) Iff.rfl

/- Concrete scenario data used by witnesses and counterexamples. -/

def cfgC : DocsIndexKeeperConfig :=
  ⟨("docs/README.md").data, ("docs").data, [], [], false⟩

def rootC : Str := ("r").data

def idxC : Str := joinPath rootC cfgC.indexFile

def ovC : Option Str := some ("docs/new.md").data

def readme0 : Str := ("| Doc | Purpose |\n| [a](a.md) | A |\n\nhello").data

def fs0 : FS := [(idxC, readme0)]

def fs1C : FS := (update fs0 rootC cfgC ovC none []).2

def readme3 : Str :=
  ("| [y](y.md) | | [archive/](q.md) | x |\n| [b](q.md) | B |\n").data

def fs3 : FS := [(idxC, readme3)]

def lnsS : List Str := [("| Doc | Purpose |").data, ("|-----|---------|").data]

def zS : Str := ("| [archive/](archive/) | Historical |\n").data

def readmeS : Str := flatJoin lnsS ++ zS

def fsS : FS :=
  [(idxC, readmeS),
   (joinPath rootC ("docs/new.md").data, ("# New Doc\nContent").data)]

def rowC6 : IndexRow := ⟨("t").data, ("p").data, some ("u").data⟩

def readmeC6 : Str := ("a\n\nb").data

/- Basic facts about the string primitives. -/

theorem splitLines_ne_nil (s : Str) : splitLines s ≠ [] := by
  induction s with
  | nil => simp [splitLines]
  | cons c rest ih =>
    simp only [splitLines]
    split
    · simp
    · cases h : splitLines rest with
      | nil => simp
      | cons l ls => simp

theorem mem_splitLines_no_nl (s : Str) : ∀ l ∈ splitLines s, '\n' ∉ l := by
  induction s with
  | nil => intro l hl; simp [splitLines] at hl; simp [hl]
  | cons c rest ih =>
    intro l hl
    simp only [splitLines] at hl
    by_cases hc : c = '\n'
    · rw [if_pos hc] at hl
      rcases List.mem_cons.mp hl with h | h
      · simp [h]
      · exact ih l h
    · rw [if_neg hc] at hl
      cases h : splitLines rest with
      | nil => exact absurd h (splitLines_ne_nil rest)
      | cons l0 ls =>
        rw [h] at hl
        rcases List.mem_cons.mp hl with h1 | h1
        · subst h1
          intro hmem
          rcases List.mem_cons.mp hmem with h2 | h2
          · exact hc h2.symm
          · exact ih l0 (by rw [h]; exact List.mem_cons_self _ _) h2
        · exact ih l (by rw [h]; exact List.mem_cons_of_mem _ h1)

theorem splitLines_line_append (l r : Str) (hl : '\n' ∉ l) :
    splitLines (l ++ '\n' :: r) = l :: splitLines r := by
  induction l with
  | nil => simp [splitLines]
  | cons c t ih =>
    have hc : c ≠ '\n' := fun h => hl (h ▸ List.mem_cons_self _ _)
    have ht : '\n' ∉ t := fun h => hl (List.mem_cons_of_mem _ h)
    simp only [List.cons_append, splitLines, if_neg hc]
    rw [List.append_eq, ih ht]

theorem splitLines_flatJoin_append (lns : List Str) (X : Str)
    (h : ∀ l ∈ lns, '\n' ∉ l) :
    splitLines (flatJoin lns ++ X) = lns ++ splitLines X := by
  induction lns with
  | nil => simp [flatJoin]
  | cons l t ih =>
    have hl : '\n' ∉ l := h l (List.mem_cons_self _ _)
    have ht : ∀ x ∈ t, '\n' ∉ x := fun x hx => h x (List.mem_cons_of_mem _ hx)
    simp only [flatJoin, List.append_assoc, List.cons_append]
    rw [splitLines_line_append l (flatJoin t ++ X) hl, ih ht]

theorem joinNl_newline (ls : List Str) (X : Str) (h : ls ≠ []) :
    joinNl ls ++ '\n' :: X = flatJoin ls ++ X := by
  induction ls with
  | nil => exact absurd rfl h
  | cons l t ih =>
    cases t with
    | nil => simp [joinNl, flatJoin]
    | cons l2 t2 =>
      simp only [joinNl, flatJoin, List.append_assoc, List.cons_append]
      rw [ih (by simp)]
      simp [flatJoin, List.append_assoc]

theorem flatJoin_append (a b : List Str) :
    flatJoin (a ++ b) = flatJoin a ++ flatJoin b := by
  induction a with
  | nil => simp [flatJoin]
  | cons l t ih => simp [flatJoin, ih]

theorem flatJoin_length (a : List Str) (l : Str) (h : l ∈ a) :
    l.length < (flatJoin a).length := by
  induction a with
  | nil => simp at h
  | cons x t ih =>
    rcases List.mem_cons.mp h with h1 | h1
    · subst h1
      simp only [flatJoin, List.length_append, List.length_cons]
      omega
    · have := ih h1
      simp only [flatJoin, List.length_append, List.length_cons]
      omega

theorem indexOfSub_le (s pat : Str) (i : Nat) (h : indexOfSub s pat = some i) :
    i ≤ s.length := by
  induction s generalizing i with
  | nil =>
    simp only [indexOfSub] at h
    split at h
    · simp at h; omega
    · simp at h
  | cons c rest ih =>
    simp only [indexOfSub] at h
    split at h
    · simp at h; omega
    · simp only [Option.map_eq_some'] at h
      obtain ⟨j, hj, hij⟩ := h
      have := ih j hj
      simp [← hij, List.length_cons]
      omega

theorem indexOfSub_found (s pat : Str) (i : Nat) (h : indexOfSub s pat = some i) :
    pat.isPrefixOf (s.drop i) = true := by
  induction s generalizing i with
  | nil =>
    simp only [indexOfSub] at h
    split at h
    · rename_i hp
      simp only [Option.some.injEq] at h
      subst h
      simpa using hp
    · simp at h
  | cons c rest ih =>
    simp only [indexOfSub] at h
    split at h
    · rename_i hp
      simp only [Option.some.injEq] at h
      subst h
      simpa using hp
    · simp only [Option.map_eq_some'] at h
      obtain ⟨j, hj, hij⟩ := h
      subst hij
      simpa using ih j hj

theorem indexOfSub_least (s pat : Str) (i : Nat) (h : indexOfSub s pat = some i) :
    ∀ j < i, pat.isPrefixOf (s.drop j) = false := by
  induction s generalizing i with
  | nil =>
    simp only [indexOfSub] at h
    split at h
    · simp at h; omega
    · simp at h
  | cons c rest ih =>
    simp only [indexOfSub] at h
    split at h
    · simp at h; omega
    · rename_i hnp
      simp only [Option.map_eq_some'] at h
      obtain ⟨k, hk, hik⟩ := h
      subst hik
      intro j hj
      cases j with
      | zero => simpa using Bool.eq_false_iff.mpr hnp
      | succ j2 =>
        simpa using ih k hk j2 (by omega)

theorem indexOfSub_none (s pat : Str) (h : indexOfSub s pat = none) :
    ∀ j, pat.isPrefixOf (s.drop j) = false := by
  induction s with
  | nil =>
    intro j
    simp only [indexOfSub] at h
    split at h
    · simp at h
    · rename_i hnp
      simpa using Bool.eq_false_iff.mpr hnp
  | cons c rest ih =>
    intro j
    simp only [indexOfSub] at h
    split at h
    · simp at h
    · rename_i hnp
      simp only [Option.map_eq_none'] at h
      cases j with
      | zero => simpa using Bool.eq_false_iff.mpr hnp
      | succ j2 => simpa using ih h j2

theorem takeWhile_all_stop (p : Char → Bool) (a : Str) (c : Char) (b : Str)
    (ha : ∀ x ∈ a, p x = true) (hc : p c = false) :
    (a ++ c :: b).takeWhile p = a := by
  induction a with
  | nil => simp [List.takeWhile_cons, hc]
  | cons x t ih =>
    have hx : p x = true := ha x (List.mem_cons_self _ _)
    have ht : ∀ y ∈ t, p y = true := fun y hy => ha y (List.mem_cons_of_mem _ hy)
    simp [List.takeWhile_cons, hx, ih ht]

theorem dropWhile_all_stop (p : Char → Bool) (a : Str) (c : Char) (b : Str)
    (ha : ∀ x ∈ a, p x = true) (hc : p c = false) :
    (a ++ c :: b).dropWhile p = c :: b := by
  induction a with
  | nil => simp [List.dropWhile_cons, hc]
  | cons x t ih =>
    have hx : p x = true := ha x (List.mem_cons_self _ _)
    have ht : ∀ y ∈ t, p y = true := fun y hy => ha y (List.mem_cons_of_mem _ hy)
    simp [List.dropWhile_cons, hx, ih ht]

theorem mem_jsTrim_subset (s : Str) (x : Char) (h : x ∈ jsTrim s) : x ∈ s := by
  unfold jsTrim at h
  have h1 := List.mem_reverse.mp h
  have h2 := List.dropWhile_subset jsWs h1
  have h3 := List.mem_reverse.mp h2
  exact List.dropWhile_subset jsWs h3

theorem mem_stripMd_subset (q : Str) (x : Char) (h : x ∈ stripMd q) : x ∈ q := by
  unfold stripMd at h
  split at h
  · exact (List.take_subset _ _) h
  · exact h

theorem mem_humanize_no_nl (t : Str) (h : '\n' ∉ t) : '\n' ∉ humanize t := by
  intro hmem
  unfold humanize at hmem
  rcases List.mem_map.mp hmem with ⟨c, hc, heq⟩
  by_cases hdash : c = '-'
  · rw [if_pos hdash] at heq; exact absurd heq.symm (by decide)
  · rw [if_neg hdash] at heq; exact h (heq ▸ hc)

theorem fsLookup_write_self (fs : FS) (p c : Str) :
    fsLookup (fsWrite fs p c) p = some c := by
  induction fs with
  | nil => simp [fsWrite, fsLookup]
  | cons qd rest ih =>
    obtain ⟨q, d⟩ := qd
    by_cases hq : q = p
    · simp [fsWrite, fsLookup, hq]
    · simp [fsWrite, fsLookup, hq, ih]

theorem fsRead_write_self (fs : FS) (p c : Str) :
    fsRead (fsWrite fs p c) p = c := by
  simp [fsRead, fsLookup_write_self]

theorem fsExists_write_self (fs : FS) (p c : Str) :
    fsExists (fsWrite fs p c) p = true := by
  simp [fsExists, fsLookup_write_self]

theorem contains_eq_true_iff (l : List Str) (a : Str) :
    l.contains a = true ↔ a ∈ l := by
  simp [List.contains, List.elem_iff]

theorem renderRow_eq (r : IndexRow) :
    renderRow r = '|' :: ' ' :: '[' ::
      (r.title ++ ']' :: '(' ::
        (r.path ++ ')' :: ' ' :: '|' :: ' ' :: (purposeOf r ++ [' ', '|']))) := by
  show ('|' :: ' ' :: '[' :: ([] : Str)) ++ r.title ++ ([']', '('] : Str) ++ r.path ++
      ([')', ' ', '|', ' '] : Str) ++ purposeOf r ++ ([' ', '|'] : Str) = _
  simp [List.append_assoc]

theorem jsWs_space : jsWs ' ' = true := by decide

theorem jsWs_lbrack : jsWs '[' = false := by decide

theorem jsWs_pipe : jsWs '|' = false := by decide

theorem pipeStart_cons (c : Char) (x : Str) : pipeStart (c :: x) = (c == '|') := by
  simp [pipeStart, List.isPrefixOf, eq_comm]

theorem pipeStart_renderRow (r : IndexRow) : pipeStart (renderRow r) = true := by
  rw [renderRow_eq, pipeStart_cons]
  decide

theorem matchLinkAt_pipe (r0 : Str) :
    matchLinkAt ('|' :: r0) = linkAfterPipe (r0.dropWhile jsWs) := by
  simp [matchLinkAt]

theorem linkStep2_eq (title Y : Str) (ht : title ≠ [])
    (htb' : ∀ x ∈ title, (!(x == ']')) = true) :
    linkStep2 (title ++ ']' :: '(' :: Y) = linkStep3 title Y := by
  unfold linkStep2
  rw [takeWhile_all_stop _ _ _ _ htb' (by decide),
    dropWhile_all_stop _ _ _ _ htb' (by decide),
    if_neg (by simp [ht])]
  simp [linkStep2b]

theorem linkStep3_eq (title path Y : Str) (hp : path ≠ [])
    (hpb' : ∀ x ∈ path, (!(x == ')')) = true) :
    linkStep3 title (path ++ ')' :: ' ' :: '|' :: Y) = some (title, path) := by
  unfold linkStep3
  rw [takeWhile_all_stop _ _ _ _ hpb' (by decide),
    dropWhile_all_stop _ _ _ _ hpb' (by decide),
    if_neg (by simp [hp])]
  simp [linkStep3b, linkStep4, List.dropWhile_cons, jsWs_space, jsWs_pipe]

theorem matchLinkAt_renderRow (r : IndexRow) (ht : r.title ≠ []) (htb : ']' ∉ r.title)
    (hp : r.path ≠ []) (hpb : ')' ∉ r.path) :
    matchLinkAt (renderRow r) = some (r.title, r.path) := by
  have htb' : ∀ x ∈ r.title, (!(x == ']')) = true := by
    intro x hx
    have hne : x ≠ ']' := fun h => htb (h ▸ hx)
    simp [hne]
  have hpb' : ∀ x ∈ r.path, (!(x == ')')) = true := by
    intro x hx
    have hne : x ≠ ')' := fun h => hpb (h ▸ hx)
    simp [hne]
  rw [renderRow_eq, matchLinkAt_pipe]
  rw [List.dropWhile_cons]
  rw [if_pos (by rw [jsWs_space])]
  rw [List.dropWhile_cons]
  rw [if_neg (by rw [jsWs_lbrack]; simp)]
  show linkStep2 _ = _
  rw [linkStep2_eq r.title _ ht htb', linkStep3_eq r.title r.path _ hp hpb']

theorem findLinkMatch_renderRow (r : IndexRow) (ht : r.title ≠ []) (htb : ']' ∉ r.title)
    (hp : r.path ≠ []) (hpb : ')' ∉ r.path) :
    findLinkMatch (renderRow r) = some (r.title, r.path) := by
  have hm := matchLinkAt_renderRow r ht htb hp hpb
  rw [renderRow_eq] at hm ⊢
  simp only [findLinkMatch, hm]

theorem pipeStart_tableStart (l : Str) (h : pipeStart l = true) :
    tableStart l = true := by
  cases l with
  | nil => simp [pipeStart, List.isPrefixOf] at h
  | cons c x =>
    rw [pipeStart_cons] at h
    have hc : c = '|' := by simpa using h
    subst hc
    simp [tableStart, pipeStart_cons, List.contains_cons]

theorem parseTableGo_acc (lines : List Str) (b : Bool) (acc : List IndexRow) :
    parseTableGo lines b acc = acc ++ parseTableGo lines b [] := by
  induction lines generalizing b acc with
  | nil => simp [parseTableGo]
  | cons line rest ih =>
    simp only [parseTableGo]
    by_cases hts : tableStart line = true
    · rw [if_pos hts, if_pos hts]
      cases hfm : findLinkMatch line with
      | none =>
        simp only
        rw [ih true acc]
      | some tp =>
        obtain ⟨t, p⟩ := tp
        simp only
        calc parseTableGo rest true (acc ++ [(⟨t, p, none⟩ : IndexRow)])
            = (acc ++ [(⟨t, p, none⟩ : IndexRow)]) ++ parseTableGo rest true [] :=
              ih true (acc ++ [⟨t, p, none⟩])
          _ = acc ++ ([(⟨t, p, none⟩ : IndexRow)] ++ parseTableGo rest true []) := by
              simp [List.append_assoc]
          _ = acc ++ parseTableGo rest true ([] ++ [(⟨t, p, none⟩ : IndexRow)]) := by
              rw [List.nil_append]
              rw [ih true [⟨t, p, none⟩]]
    · rw [if_neg hts, if_neg hts]
      by_cases hb : (b && !(pipeStart (jsTrim line))) = true
      · rw [if_pos hb, if_pos hb]
        simp
      · rw [if_neg hb, if_neg hb]
        exact ih b acc

theorem parseTableGo_pipe_block (rest : List Str) (lns : List Str) (b : Bool)
    (acc : List IndexRow) (h : ∀ l ∈ lns, pipeStart l = true) :
    parseTableGo (lns ++ rest) b acc =
      parseTableGo rest (b || !lns.isEmpty) (acc ++ rowsOfLines lns) := by
  induction lns generalizing b acc with
  | nil => simp [rowsOfLines]
  | cons line t ih =>
    have hline : pipeStart line = true := h line (List.mem_cons_self _ _)
    have ht : ∀ l ∈ t, pipeStart l = true := fun l hl => h l (List.mem_cons_of_mem _ hl)
    have hts : tableStart line = true := pipeStart_tableStart line hline
    simp only [List.cons_append, List.append_eq, parseTableGo, if_pos hts]
    cases hfm : findLinkMatch line with
    | none =>
      simp only
      rw [ih true (acc) ht]
      simp [rowsOfLines, List.filterMap_cons, hfm]
    | some tp =>
      obtain ⟨tt, pp⟩ := tp
      simp only
      rw [ih true (acc ++ [(⟨tt, pp, none⟩ : IndexRow)]) ht]
      simp [rowsOfLines, List.filterMap_cons, hfm]

theorem parseTableGo_false_true (lines : List Str) (acc : List IndexRow)
    (hne : lines ≠ []) (hfirst : pipeStart (lines.headI) = true) :
    parseTableGo lines false acc = parseTableGo lines true acc := by
  cases lines with
  | nil => exact absurd rfl hne
  | cons line rest =>
    have hts : tableStart line = true :=
      pipeStart_tableStart line (by simpa using hfirst)
    simp only [parseTableGo, if_pos hts]

theorem cnrGo_exists_of_ne_nil (fs : FS) (root : Str) (cfg : DocsIndexKeeperConfig)
    (docs : List Str) (seed : List Str)
    (h : computeNewRowsGo fs root cfg docs seed ≠ []) :
    ∃ p ∈ docs, seed.contains (stripDocsPrefix cfg.docsDir p) = false := by
  induction docs generalizing seed with
  | nil => simp [computeNewRowsGo] at h
  | cons p rest ih =>
    by_cases hc : seed.contains (stripDocsPrefix cfg.docsDir p) = true
    · simp only [computeNewRowsGo, if_pos hc] at h
      obtain ⟨q, hq, hqc⟩ := ih seed h
      exact ⟨q, List.mem_cons_of_mem _ hq, hqc⟩
    · exact ⟨p, List.mem_cons_self _ _, Bool.eq_false_iff.mpr hc⟩

theorem cnrGo_cover (fs : FS) (root : Str) (cfg : DocsIndexKeeperConfig)
    (docs : List Str) (seed : List Str) :
    ∀ p ∈ docs, stripDocsPrefix cfg.docsDir p ∈ seed ∨
      stripDocsPrefix cfg.docsDir p ∈
        (computeNewRowsGo fs root cfg docs seed).map (fun r => r.path) := by
  induction docs generalizing seed with
  | nil => simp
  | cons q rest ih =>
    intro p hp
    by_cases hc : seed.contains (stripDocsPrefix cfg.docsDir q) = true
    · simp only [computeNewRowsGo, if_pos hc]
      rcases List.mem_cons.mp hp with h1 | h1
      · subst h1
        exact Or.inl ((contains_eq_true_iff _ _).mp hc)
      · exact ih seed p h1
    · simp only [computeNewRowsGo, if_neg hc, List.map_cons, List.mem_cons]
      rcases List.mem_cons.mp hp with h1 | h1
      · subst h1
        exact Or.inr (Or.inl rfl)
      · rcases ih (stripDocsPrefix cfg.docsDir q :: seed) p h1 with h2 | h2
        · rcases List.mem_cons.mp h2 with h3 | h3
          · exact Or.inr (Or.inl h3)
          · exact Or.inl h3
        · exact Or.inr (Or.inr h2)

theorem cnrGo_nil_of_all (fs : FS) (root : Str) (cfg : DocsIndexKeeperConfig)
    (docs : List Str) (seed : List Str)
    (h : ∀ p ∈ docs, stripDocsPrefix cfg.docsDir p ∈ seed) :
    computeNewRowsGo fs root cfg docs seed = [] := by
  induction docs with
  | nil => simp [computeNewRowsGo]
  | cons p rest ih =>
    have hc : seed.contains (stripDocsPrefix cfg.docsDir p) = true :=
      (contains_eq_true_iff _ _).mpr (h p (List.mem_cons_self _ _))
    simp only [computeNewRowsGo, if_pos hc]
    exact ih (fun q hq => h q (List.mem_cons_of_mem _ hq))

theorem cnrGo_path_not_in_seed (fs : FS) (root : Str) (cfg : DocsIndexKeeperConfig)
    (docs : List Str) (seed : List Str) :
    ∀ r ∈ computeNewRowsGo fs root cfg docs seed, r.path ∉ seed := by
  induction docs generalizing seed with
  | nil => simp [computeNewRowsGo]
  | cons p rest ih =>
    intro r hr
    by_cases hc : seed.contains (stripDocsPrefix cfg.docsDir p) = true
    · simp only [computeNewRowsGo, if_pos hc] at hr
      exact ih seed r hr
    · simp only [computeNewRowsGo, if_neg hc] at hr
      rcases List.mem_cons.mp hr with h1 | h1
      · subst h1
        intro hmem
        exact hc ((contains_eq_true_iff _ _).mpr hmem)
      · have := ih (stripDocsPrefix cfg.docsDir p :: seed) r h1
        exact fun hmem => this (List.mem_cons_of_mem _ hmem)

theorem cnrGo_paths_nodup (fs : FS) (root : Str) (cfg : DocsIndexKeeperConfig)
    (docs : List Str) (seed : List Str) :
    ((computeNewRowsGo fs root cfg docs seed).map (fun r => r.path)).Nodup := by
  induction docs generalizing seed with
  | nil => simp [computeNewRowsGo]
  | cons p rest ih =>
    by_cases hc : seed.contains (stripDocsPrefix cfg.docsDir p) = true
    · simp only [computeNewRowsGo, if_pos hc]
      exact ih seed
    · simp only [computeNewRowsGo, if_neg hc, List.map_cons, List.nodup_cons]
      constructor
      · intro hmem
        rcases List.mem_map.mp hmem with ⟨r, hr, hrp⟩
        have := cnrGo_path_not_in_seed fs root cfg rest
          (stripDocsPrefix cfg.docsDir p :: seed) r hr
        exact this (hrp ▸ List.mem_cons_self _ _)
      · exact ih (stripDocsPrefix cfg.docsDir p :: seed)

theorem cnrGo_shape (fs : FS) (root : Str) (cfg : DocsIndexKeeperConfig)
    (docs : List Str) (seed : List Str) :
    ∀ r ∈ computeNewRowsGo fs root cfg docs seed, ∃ p ∈ docs,
      r.path = stripDocsPrefix cfg.docsDir p ∧
      r.title = stripMd (stripDocsPrefix cfg.docsDir p) ∧
      r.purpose = some (rowPurpose fs root p
        (humanize (stripMd (stripDocsPrefix cfg.docsDir p)))) := by
  induction docs generalizing seed with
  | nil => simp [computeNewRowsGo]
  | cons p rest ih =>
    intro r hr
    by_cases hc : seed.contains (stripDocsPrefix cfg.docsDir p) = true
    · simp only [computeNewRowsGo, if_pos hc] at hr
      obtain ⟨q, hq, h1, h2, h3⟩ := ih seed r hr
      exact ⟨q, List.mem_cons_of_mem _ hq, h1, h2, h3⟩
    · simp only [computeNewRowsGo, if_neg hc] at hr
      rcases List.mem_cons.mp hr with h1 | h1
      · subst h1
        exact ⟨p, List.mem_cons_self _ _, rfl, rfl, rfl⟩
      · obtain ⟨q, hq, ha, hb, hcq⟩ := ih (stripDocsPrefix cfg.docsDir p :: seed) r h1
        exact ⟨q, List.mem_cons_of_mem _ hq, ha, hb, hcq⟩

theorem headingOfLine_no_nl (line : Str) (h : headingOfLine line = some hd)
    (hline : '\n' ∉ line) : '\n' ∉ hd := by
  simp only [headingOfLine] at h
  split at h
  · simp at h
  · split at h
    · simp at h
    · split at h
      · simp only [Option.some.injEq] at h
        subst h
        intro hmem
        have h1 := mem_jsTrim_subset _ _ hmem
        have h2 := List.drop_subset _ _ h1
        have h3 := List.drop_subset _ _ h2
        exact hline h3
      · simp at h

theorem getFirstHeading_no_nl (fs : FS) (root p : Str) (hd : Str)
    (h : getFirstHeading fs root p = some hd) : '\n' ∉ hd := by
  unfold getFirstHeading at h
  split at h
  · simp at h
  · rename_i content hcontent
    obtain ⟨line, hline, hsome⟩ := List.exists_of_findSome?_eq_some h
    exact headingOfLine_no_nl line hsome (mem_splitLines_no_nl content line hline)

theorem rowPurpose_no_nl (fs : FS) (root p : Str) (titleFromPath : Str)
    (h : '\n' ∉ titleFromPath) : '\n' ∉ rowPurpose fs root p titleFromPath := by
  unfold rowPurpose
  split
  · rename_i hd hh
    split
    · exact h
    · exact getFirstHeading_no_nl fs root p hd hh
  · exact h

/- Unfolding of update into its branch structure, phrased with the named
   components. -/
theorem update_eq (fs : FS) (root : Str) (cfg : DocsIndexKeeperConfig)
    (ov env : Option Str) (gitOut : Str) :
    update fs root cfg ov env gitOut =
      if (stagedOf ov env gitOut).isEmpty then (⟨false, []⟩, fs)
      else if (docsOf cfg ov env gitOut).isEmpty then (⟨false, []⟩, fs)
      else if !(fsExists fs (indexPathOf root cfg)) then (⟨false, []⟩, fs)
      else if (toAddOf fs root cfg ov env gitOut).isEmpty then (⟨false, []⟩, fs)
      else (⟨true, toAddOf fs root cfg ov env gitOut⟩,
        fsWrite fs (indexPathOf root cfg)
          (insertRows (fsRead fs (indexPathOf root cfg))
            (toAddOf fs root cfg ov env gitOut) defaultSentinel)) := rfl

theorem check_eq (fs : FS) (root : Str) (cfg : DocsIndexKeeperConfig)
    (ov env : Option Str) (gitOut : Str) :
    check fs root cfg ov env gitOut =
      if (docsOf cfg ov env gitOut).isEmpty || !(fsExists fs (indexPathOf root cfg))
        then (true, fs)
      else ((docsOf cfg ov env gitOut).all
        (fun p => (existingOf fs root cfg).contains (stripDocsPrefix cfg.docsDir p)), fs) := rfl

theorem update_characterize (fs : FS) (root : Str) (cfg : DocsIndexKeeperConfig)
    (ov env : Option Str) (gitOut : Str) :
    update fs root cfg ov env gitOut = (⟨false, []⟩, fs) ∨
    ((docsOf cfg ov env gitOut).isEmpty = false ∧
     fsExists fs (indexPathOf root cfg) = true ∧
     (toAddOf fs root cfg ov env gitOut).isEmpty = false ∧
     update fs root cfg ov env gitOut =
       (⟨true, toAddOf fs root cfg ov env gitOut⟩,
        fsWrite fs (indexPathOf root cfg)
          (insertRows (fsRead fs (indexPathOf root cfg))
            (toAddOf fs root cfg ov env gitOut) defaultSentinel))) := by
  rw [update_eq]
  by_cases h1 : (stagedOf ov env gitOut).isEmpty = true
  · left; simp [h1]
  · by_cases h2 : (docsOf cfg ov env gitOut).isEmpty = true
    · left; simp [h1, h2]
    · by_cases h3 : fsExists fs (indexPathOf root cfg) = true
      · by_cases h4 : (toAddOf fs root cfg ov env gitOut).isEmpty = true
        · left; simp [h1, h2, h3, h4]
        · right
          refine ⟨by simpa using h2, h3, by simpa using h4, ?_⟩
          simp [h1, h2, h3, h4]
      · left; simp [h1, h2, h3]

theorem update_of_false (fs : FS) (root : Str) (cfg : DocsIndexKeeperConfig)
    (ov env : Option Str) (gitOut : Str)
    (h : (update fs root cfg ov env gitOut).1.updated = false) :
    update fs root cfg ov env gitOut = (⟨false, []⟩, fs) := by
  rcases update_characterize fs root cfg ov env gitOut with hc | ⟨_, _, _, hc⟩
  · exact hc
  · rw [hc] at h
    simp at h

theorem update_of_true (fs : FS) (root : Str) (cfg : DocsIndexKeeperConfig)
    (ov env : Option Str) (gitOut : Str)
    (h : (update fs root cfg ov env gitOut).1.updated = true) :
    (docsOf cfg ov env gitOut).isEmpty = false ∧
    fsExists fs (indexPathOf root cfg) = true ∧
    (toAddOf fs root cfg ov env gitOut).isEmpty = false ∧
    update fs root cfg ov env gitOut =
      (⟨true, toAddOf fs root cfg ov env gitOut⟩,
       fsWrite fs (indexPathOf root cfg)
         (insertRows (fsRead fs (indexPathOf root cfg))
           (toAddOf fs root cfg ov env gitOut) defaultSentinel)) := by
  rcases update_characterize fs root cfg ov env gitOut with hc | hc
  · rw [hc] at h
    simp at h
  · exact hc

theorem insertRows_length_gt (readme : Str) (rows : List IndexRow) (sent : Str) :
    readme.length < (insertRows readme rows sent).length := by
  unfold insertRows
  simp only [List.length_append, List.length_take, List.length_cons, List.length_drop]
  omega

/-- Claim C7, counterexample: with the explicit override provided as the
empty string, the resolver performs the external git query and returns the
git listing, not the override lines; the claim asserts the override is the
literal source of truth for every provided string value. -/
theorem claim_C7_counterexample :
    getStagedMdFiles (some []) none (("a.md").data) = ([("a.md").data], true) := by
  decide

/-- Claim C7, amended: whenever the explicit override string is provided and
non-empty, it is the literal source of truth: the result is its lines
trimmed and filtered to markdown names, the environment override and the
git listing are ignored, and no external query is performed.  An empty
override string is falsy in the source and falls through to the query. -/
theorem claim_C7 (ov : Str) (env : Option Str) (gitOut : Str) (h : ov ≠ []) :
    getStagedMdFiles (some ov) env gitOut = (stagedFrom ov, false) := by
  simp only [getStagedMdFiles]
  rw [if_neg (by simpa using h)]

theorem claim_C7_witness :
    ("docs/a.md").data ≠ ([] : Str) ∧
    getStagedMdFiles (some (("docs/a.md").data)) none [] =
      (stagedFrom (("docs/a.md").data), false) :=
  ⟨by decide, claim_C7 (("docs/a.md").data) none [] (by decide)⟩

/-- Claim C8: whenever the configured index file does not exist, update
returns no change with an empty added list and leaves the file system
untouched, and check returns true. -/
theorem claim_C8 (fs : FS) (root : Str) (cfg : DocsIndexKeeperConfig)
    (ov env : Option Str) (gitOut : Str)
    (h : fsExists fs (joinPath root cfg.indexFile) = false) :
    update fs root cfg ov env gitOut = (⟨false, []⟩, fs) ∧
    (check fs root cfg ov env gitOut).1 = true := by
  have hidx : fsExists fs (indexPathOf root cfg) = false := h
  constructor
  · rcases update_characterize fs root cfg ov env gitOut with hc | ⟨_, hex, _, _⟩
    · exact hc
    · rw [hidx] at hex
      exact absurd hex (by simp)
  · rw [check_eq, hidx]
    simp

theorem claim_C8_witness :
    fsExists [] (joinPath rootC cfgC.indexFile) = false ∧
    (update [] rootC cfgC ovC none [] = (⟨false, []⟩, []) ∧
      (check [] rootC cfgC ovC none []).1 = true) :=
  ⟨by decide, claim_C8 [] rootC cfgC ovC none [] (by decide)⟩

/-- Claim C9: check never writes, returning the file system unchanged, and
update writes the index file exactly when it reports an update: when it
reports no change the file system is unchanged, and when it reports a
change the stored index document differs afterwards. -/
theorem claim_C9 (fs : FS) (root : Str) (cfg : DocsIndexKeeperConfig)
    (ov env : Option Str) (gitOut : Str) :
    (check fs root cfg ov env gitOut).2 = fs ∧
    ((update fs root cfg ov env gitOut).1.updated = false →
      (update fs root cfg ov env gitOut).2 = fs) ∧
    ((update fs root cfg ov env gitOut).1.updated = true →
      fsRead (update fs root cfg ov env gitOut).2 (joinPath root cfg.indexFile) ≠
        fsRead fs (joinPath root cfg.indexFile)) := by
  refine ⟨?_, ?_, ?_⟩
  · rw [check_eq]
    split
    · rfl
    · rfl
  · intro h
    rw [update_of_false fs root cfg ov env gitOut h]
  · intro h
    obtain ⟨_, _, _, heq⟩ := update_of_true fs root cfg ov env gitOut h
    rw [heq]
    have hwr : fsRead
        (fsWrite fs (indexPathOf root cfg)
          (insertRows (fsRead fs (indexPathOf root cfg))
            (toAddOf fs root cfg ov env gitOut) defaultSentinel))
        (indexPathOf root cfg) =
        insertRows (fsRead fs (indexPathOf root cfg))
          (toAddOf fs root cfg ov env gitOut) defaultSentinel :=
      fsRead_write_self _ _ _
    intro hcontra
    have hlen := insertRows_length_gt (fsRead fs (indexPathOf root cfg))
      (toAddOf fs root cfg ov env gitOut) defaultSentinel
    have : (indexPathOf root cfg) = joinPath root cfg.indexFile := rfl
    rw [← this] at hcontra
    rw [hwr] at hcontra
    rw [hcontra] at hlen
    omega

theorem claim_C9_witness :
    (update fsS rootC cfgC ovC none []).1.updated = true ∧
    fsRead (update fsS rootC cfgC ovC none []).2 (joinPath rootC cfgC.indexFile) ≠
      fsRead fsS (joinPath rootC cfgC.indexFile) :=
  ⟨by decide, (claim_C9 fsS rootC cfgC ovC none []).2.2 (by decide)⟩

/-- Claim C10: inserting an empty row sequence is not the identity: a single
newline character is spliced at the computed offset, so the result always
differs from the input document. -/
theorem claim_C10 (readme sent : Str) :
    (∃ i, insertRows readme [] sent = readme.take i ++ '\n' :: readme.drop i) ∧
    insertRows readme [] sent ≠ readme := by
  constructor
  · refine ⟨(insertOffset readme sent).toNat, ?_⟩
    unfold insertRows
    simp [joinNl]
  · intro h
    have hlen := insertRows_length_gt readme [] sent
    rw [h] at hlen
    omega

theorem claim_C10_witness :
    (∃ i, insertRows readmeC6 [] defaultSentinel =
      readmeC6.take i ++ '\n' :: readmeC6.drop i) ∧
    insertRows readmeC6 [] defaultSentinel ≠ readmeC6 :=
  claim_C10 readmeC6 defaultSentinel

/-- Claim C5, counterexample: on a document whose first line is a single
pipe character, the parser as implemented enters the table region there,
while the two-pipe entry test of the claim does not; the two disagree on a
concrete document, so the claim misstates the entry condition. -/
theorem claim_C5_counterexample :
    parseTable (("|\nfoo\n| [a](b.md) |").data) ≠
      parseTableTwoPipes (("|\nfoo\n| [a](b.md) |").data) := by
  decide

/-- Claim C5, amended: the parser enters the table region exactly when a
line starts with a pipe; the containment test of the source is redundant
because a line starting with a pipe always contains one, so a line that
starts with a pipe and has no second pipe does enter the region. -/
theorem claim_C5 (line : Str) : tableStart line = pipeStart line := by
  cases line with
  | nil => decide
  | cons c x =>
    by_cases hc : c = '|'
    · subst hc
      simp [tableStart, pipeStart_cons, List.contains_cons]
    · have h1 : pipeStart (c :: x) = false := by
        rw [pipeStart_cons]
        simpa using hc
      simp [tableStart, h1]

theorem claim_C5_witness : tableStart (("|").data) = pipeStart (("|").data) :=
  claim_C5 (("|").data)

/-- Claim C3, counterexample: starting from an index whose parsed paths are
pairwise distinct, one update run produces a document whose parsed paths
contain a duplicate, because the sentinel occurrence sits in the middle of
a line holding a second link; path uniqueness of the table rows is not
preserved by every operation. -/
theorem claim_C3_counterexample :
    ((parseTable readme3).map (fun r => r.path)).Nodup ∧
    ¬ ((parseTable (fsRead (update fs3 rootC cfgC ovC none []).2 idxC)).map
        (fun r => r.path)).Nodup := by
  constructor
  · decide
  · decide

/-- Claim C3, amended: a path already present in the seen set is never
emitted by computeNewRows, and the emitted paths are pairwise distinct even
when a candidate appears multiple times in one batch; however the parsed
uniqueness invariant of the whole table is not preserved by update in
general. -/
theorem claim_C3 (fs : FS) (root : Str) (cfg : DocsIndexKeeperConfig)
    (docs seed : List Str) :
    (∀ r ∈ computeNewRows fs root docs seed cfg, r.path ∉ seed) ∧
    ((computeNewRows fs root docs seed cfg).map (fun r => r.path)).Nodup := by
  exact ⟨cnrGo_path_not_in_seed fs root cfg docs seed,
    cnrGo_paths_nodup fs root cfg docs seed⟩

theorem claim_C3_witness :
    (∀ r ∈ computeNewRows fs3 rootC [("docs/q.md").data, ("docs/q.md").data]
      [("a.md").data] cfgC, r.path ∉ [("a.md").data]) ∧
    ((computeNewRows fs3 rootC [("docs/q.md").data, ("docs/q.md").data]
      [("a.md").data] cfgC).map (fun r => r.path)).Nodup :=
  claim_C3 fs3 rootC cfgC [("docs/q.md").data, ("docs/q.md").data] [("a.md").data]

theorem stagedDocPred_iff (cfg : DocsIndexKeeperConfig) (p : Str) :
    stagedDocPred cfg p = true ↔
      ∃ rel, p = cfg.docsDir ++ '/' :: rel ∧
        ∀ e ∈ cfg.exclude, ¬(rel = e ∨ e <+: rel) := by
  unfold stagedDocPred excludedRel
  constructor
  · intro h
    obtain ⟨hpre, hexc⟩ := Bool.and_eq_true_iff.mp h
    obtain ⟨t, ht⟩ := List.isPrefixOf_iff_prefix.mp hpre
    have hp : p = cfg.docsDir ++ '/' :: t := by
      rw [← ht]
      simp [List.append_assoc]
    have hdrop : p.drop (cfg.docsDir.length + 1) = t := by
      rw [← ht]
      exact List.drop_left' (by simp)
    refine ⟨t, hp, ?_⟩
    intro e he
    have hany : (cfg.exclude.any
        (fun e => p.drop (cfg.docsDir.length + 1) == e ||
          e.isPrefixOf (p.drop (cfg.docsDir.length + 1)))) = false := by
      simpa using hexc
    have hthis := (List.any_eq_false).mp hany e he
    rw [hdrop] at hthis
    intro hcon
    rcases hcon with hcb | hcb
    · exact hthis (by simp [hcb])
    · exact hthis (by simp [ List.isPrefixOf_iff_prefix.mpr hcb])
  · rintro ⟨rel, hp, hexc⟩
    have hdrop : p.drop (cfg.docsDir.length + 1) = rel := by
      rw [hp]
      have : cfg.docsDir ++ '/' :: rel = (cfg.docsDir ++ ['/']) ++ rel := by
        simp [List.append_assoc]
      rw [this]
      exact List.drop_left' (by simp)
    refine Bool.and_eq_true_iff.mpr ⟨?_, ?_⟩
    · apply List.isPrefixOf_iff_prefix.mpr
      refine ⟨rel, ?_⟩
      rw [hp]
      simp [List.append_assoc]
    · have hany : (cfg.exclude.any
          (fun e => p.drop (cfg.docsDir.length + 1) == e ||
            e.isPrefixOf (p.drop (cfg.docsDir.length + 1)))) = false := by
        apply List.any_eq_false.mpr
        intro e he
        rw [hdrop]
        intro hcon
        rcases Bool.or_eq_true_iff.mp hcon with hcb | hcb
        · exact hexc e he (Or.inl (by simpa using hcb))
        · exact hexc e he (Or.inr ( List.isPrefixOf_iff_prefix.mp hcb))
      simp [hany]

/-- Claim C4, counterexample: the doc-set filter keeps a candidate inside
the docs directory but returns it unchanged, docs prefix included; the
claim asserts every output element has the prefix stripped, which would
give the docs-relative name instead. -/
theorem claim_C4_counterexample :
    getStagedDocs [("docs/foo.md").data] cfgC = [("docs/foo.md").data] ∧
    ("docs/foo.md").data ≠ ("foo.md").data := by
  constructor
  · decide
  · decide

/-- Claim C4, amended: the doc-set filter keeps exactly the candidates that
begin with the docs directory prefix and whose remainder neither equals nor
starts with any exclude entry, preserving input order as a sublist, and it
returns each kept candidate unchanged with the prefix still attached;
stripping happens downstream in the diff and check steps. -/
theorem claim_C4 (staged : List Str) (cfg : DocsIndexKeeperConfig) :
    List.Sublist (getStagedDocs staged cfg) staged ∧
    ∀ p, p ∈ getStagedDocs staged cfg ↔
      (p ∈ staged ∧ ∃ rel, p = cfg.docsDir ++ '/' :: rel ∧
        ∀ e ∈ cfg.exclude, ¬(rel = e ∨ e <+: rel)) := by
  constructor
  · exact List.filter_sublist staged
  · intro p
    unfold getStagedDocs
    rw [List.mem_filter]
    rw [stagedDocPred_iff]

theorem claim_C4_witness :
    List.Sublist (getStagedDocs [("docs/foo.md").data, ("other.md").data] cfgC)
      [("docs/foo.md").data, ("other.md").data] ∧
    ∀ p, p ∈ getStagedDocs [("docs/foo.md").data, ("other.md").data] cfgC ↔
      (p ∈ [("docs/foo.md").data, ("other.md").data] ∧
        ∃ rel, p = cfgC.docsDir ++ '/' :: rel ∧
          ∀ e ∈ cfgC.exclude, ¬(rel = e ∨ e <+: rel)) :=
  claim_C4 [("docs/foo.md").data, ("other.md").data] cfgC

theorem insertRows_eq_offset (readme : Str) (rows : List IndexRow) (sent : Str) :
    insertRows readme rows sent =
      readme.take (insertOffset readme sent).toNat ++
        joinNl (rows.map renderRow) ++ '\n' ::
        readme.drop (insertOffset readme sent).toNat := rfl

theorem insertOffset_some (readme sent : Str) (n : Nat)
    (h : indexOfSub readme sent = some n) : insertOffset readme sent = (n : Int) := by
  unfold insertOffset jsIndexOf
  rw [h]
  have h1 : (((n : Nat) : Int) == -1) = false := by
    simp only [beq_eq_false_iff_ne]
    omega
  simp [h1]

theorem insertOffset_none (readme sent : Str)
    (h : indexOfSub readme sent = none) :
    insertOffset readme sent =
      if jsIndexOfFrom readme nlnl (jsIndexOf readme headerRow) == -1
        then (readme.length : Int)
      else jsIndexOfFrom readme nlnl (jsIndexOf readme headerRow) := by
  unfold insertOffset jsIndexOf
  rw [h]
  simp

theorem jsIndexOfFrom_eq_some (s pat : Str) (start : Int) (k : Nat)
    (h : indexOfSub (s.drop (min start.toNat s.length)) pat = some k) :
    jsIndexOfFrom s pat start = ((min start.toNat s.length + k : Nat) : Int) := by
  simp only [jsIndexOfFrom]
  rw [h]

theorem jsIndexOfFrom_eq_none (s pat : Str) (start : Int)
    (h : indexOfSub (s.drop (min start.toNat s.length)) pat = none) :
    jsIndexOfFrom s pat start = -1 := by
  simp only [jsIndexOfFrom]
  rw [h]

theorem occursAt_iff (pat s : Str) (i : Nat) :
    occursAt pat s i ↔ pat.isPrefixOf (s.drop i) = true := by
  unfold occursAt
  exact List.isPrefixOf_iff_prefix.symm

/-- Claim C6, counterexample: on a document with no sentinel and no header
row but containing a blank-line pair, the rows are spliced at the first
blank-line pair rather than appended at the end as the claim requires,
because a missing header yields fromIndex minus one, which the indexOf of
the source treats as zero. -/
theorem claim_C6_counterexample :
    insertRows readmeC6 [rowC6] defaultSentinel ≠
      readmeC6 ++ renderRow rowC6 ++ ['\n'] := by
  decide

/-- Claim C6, amended: for a non-empty row sequence the rendered row lines,
joined by newlines with one trailing newline, are spliced at an offset
characterized as follows, with the text on both sides preserved: the
leftmost occurrence of the sentinel when it occurs; otherwise the leftmost
occurrence of a blank-line pair at or after the base position, where the
base position is the leftmost occurrence of the header row, or the start of
the document when the header is absent; otherwise the end of the document.
The claim wrongly demanded end-of-document insertion whenever the header is
absent. -/
theorem claim_C6 (readme : Str) (rows : List IndexRow) (sent : Str)
    (_hrows : rows ≠ []) :
    ∃ i, i ≤ readme.length ∧
      insertRows readme rows sent =
        readme.take i ++ joinNl (rows.map renderRow) ++ '\n' :: readme.drop i ∧
      ((occursAt sent readme i ∧ ∀ j < i, ¬ occursAt sent readme j) ∨
       ((∀ j, ¬ occursAt sent readme j) ∧
        ∃ h0, ((occursAt headerRow readme h0 ∧
                 ∀ j < h0, ¬ occursAt headerRow readme j) ∨
               ((∀ j, ¬ occursAt headerRow readme j) ∧ h0 = 0)) ∧
          occursAt nlnl readme i ∧ h0 ≤ i ∧
          ∀ j, h0 ≤ j → j < i → ¬ occursAt nlnl readme j) ∨
       ((∀ j, ¬ occursAt sent readme j) ∧
        ∃ h0, ((occursAt headerRow readme h0 ∧
                 ∀ j < h0, ¬ occursAt headerRow readme j) ∨
               ((∀ j, ¬ occursAt headerRow readme j) ∧ h0 = 0)) ∧
          (∀ j, h0 ≤ j → ¬ occursAt nlnl readme j) ∧ i = readme.length)) := by
  cases hsent : indexOfSub readme sent with
  | some n =>
    refine ⟨n, indexOfSub_le readme sent n hsent, ?_, ?_⟩
    · rw [insertRows_eq_offset, insertOffset_some readme sent n hsent]
      simp [Int.toNat_natCast]
    · left
      constructor
      · exact (occursAt_iff sent readme n).mpr (indexOfSub_found readme sent n hsent)
      · intro j hj hocc
        have hfalse := indexOfSub_least readme sent n hsent j hj
        rw [(occursAt_iff sent readme j).mp hocc] at hfalse
        exact absurd hfalse (by simp)
  | none =>
    have hsentall : ∀ j, ¬ occursAt sent readme j := by
      intro j hocc
      have hfalse := indexOfSub_none readme sent hsent j
      rw [(occursAt_iff sent readme j).mp hocc] at hfalse
      exact absurd hfalse (by simp)
    have hoff := insertOffset_none readme sent hsent
    -- the base position determined by the header search
    obtain ⟨h0, hh0chr, hst⟩ :
        ∃ h0, (((occursAt headerRow readme h0 ∧
            ∀ j < h0, ¬ occursAt headerRow readme j) ∨
           ((∀ j, ¬ occursAt headerRow readme j) ∧ h0 = 0)) ∧ h0 ≤ readme.length) ∧
          min (jsIndexOf readme headerRow).toNat readme.length = h0 := by
      cases hh : indexOfSub readme headerRow with
      | some m =>
        have hm := indexOfSub_le readme headerRow m hh
        refine ⟨m, ⟨Or.inl ⟨?_, ?_⟩, hm⟩, ?_⟩
        · exact (occursAt_iff _ _ _).mpr (indexOfSub_found readme headerRow m hh)
        · intro j hj hocc
          have hfalse := indexOfSub_least readme headerRow m hh j hj
          rw [(occursAt_iff _ _ _).mp hocc] at hfalse
          exact absurd hfalse (by simp)
        · unfold jsIndexOf
          rw [hh]
          simp [Int.toNat_natCast]
          omega
      | none =>
        refine ⟨0, ⟨Or.inr ⟨?_, rfl⟩, by omega⟩, ?_⟩
        · intro j hocc
          have hfalse := indexOfSub_none readme headerRow hh j
          rw [(occursAt_iff _ _ _).mp hocc] at hfalse
          exact absurd hfalse (by simp)
        · unfold jsIndexOf
          rw [hh]
          simp
    obtain ⟨hh0chr, hh0le⟩ := hh0chr
    cases hnn : indexOfSub (readme.drop h0) nlnl with
    | some k =>
      have hkle := indexOfSub_le (readme.drop h0) nlnl k hnn
      rw [List.length_drop] at hkle
      have hfrom := jsIndexOfFrom_eq_some readme nlnl (jsIndexOf readme headerRow) k
        (by rw [hst]; exact hnn)
      rw [hst] at hfrom
      refine ⟨h0 + k, by omega, ?_, ?_⟩
      · rw [insertRows_eq_offset, hoff, hfrom]
        have hbeq : ((((h0 + k : Nat)) : Int) == -1) = false := by
          simp only [beq_eq_false_iff_ne]
          omega
        rw [hbeq, if_neg (by simp), Int.toNat_natCast]
      · right; left
        refine ⟨hsentall, h0, hh0chr, ?_, by omega, ?_⟩
        · have := indexOfSub_found (readme.drop h0) nlnl k hnn
          rw [List.drop_drop] at this
          exact (occursAt_iff _ _ _).mpr this
        · intro j hj1 hj2 hocc
          have hj3 : j - h0 < k := by omega
          have hfalse := indexOfSub_least (readme.drop h0) nlnl k hnn (j - h0) hj3
          rw [List.drop_drop] at hfalse
          have hjeq : h0 + (j - h0) = j := by omega
          rw [hjeq] at hfalse
          rw [(occursAt_iff _ _ _).mp hocc] at hfalse
          exact absurd hfalse (by simp)
    | none =>
      have hfrom := jsIndexOfFrom_eq_none readme nlnl (jsIndexOf readme headerRow)
        (by rw [hst]; exact hnn)
      refine ⟨readme.length, le_refl _, ?_, ?_⟩
      · rw [insertRows_eq_offset, hoff, hfrom]
        simp
      · right; right
        refine ⟨hsentall, h0, hh0chr, ?_, rfl⟩
        intro j hj hocc
        have hfalse := indexOfSub_none (readme.drop h0) nlnl hnn (j - h0)
        rw [List.drop_drop] at hfalse
        have hjeq : h0 + (j - h0) = j := by omega
        rw [hjeq] at hfalse
        rw [(occursAt_iff _ _ _).mp hocc] at hfalse
        exact absurd hfalse (by simp)

theorem claim_C6_witness :
    ([rowC6] ≠ ([] : List IndexRow)) ∧
    (∃ i, i ≤ readmeC6.length ∧
      insertRows readmeC6 [rowC6] defaultSentinel =
        readmeC6.take i ++ joinNl ([rowC6].map renderRow) ++ '\n' ::
          readmeC6.drop i ∧
      ((occursAt defaultSentinel readmeC6 i ∧
          ∀ j < i, ¬ occursAt defaultSentinel readmeC6 j) ∨
       ((∀ j, ¬ occursAt defaultSentinel readmeC6 j) ∧
        ∃ h0, ((occursAt headerRow readmeC6 h0 ∧
                 ∀ j < h0, ¬ occursAt headerRow readmeC6 j) ∨
               ((∀ j, ¬ occursAt headerRow readmeC6 j) ∧ h0 = 0)) ∧
          occursAt nlnl readmeC6 i ∧ h0 ≤ i ∧
          ∀ j, h0 ≤ j → j < i → ¬ occursAt nlnl readmeC6 j) ∨
       ((∀ j, ¬ occursAt defaultSentinel readmeC6 j) ∧
        ∃ h0, ((occursAt headerRow readmeC6 h0 ∧
                 ∀ j < h0, ¬ occursAt headerRow readmeC6 j) ∨
               ((∀ j, ¬ occursAt headerRow readmeC6 j) ∧ h0 = 0)) ∧
          (∀ j, h0 ≤ j → ¬ occursAt nlnl readmeC6 j) ∧ i = readmeC6.length))) :=
  ⟨by decide, claim_C6 readmeC6 [rowC6] defaultSentinel (by decide)⟩

theorem splitLines_cons_ne (c : Char) (s : Str) (hc : c ≠ '\n') :
    splitLines (c :: s) = (c :: (splitLines s).headI) :: (splitLines s).tail := by
  simp only [splitLines, if_neg hc]
  cases h : splitLines s with
  | nil => exact absurd h (splitLines_ne_nil s)
  | cons l ls => simp

theorem pipeStart_splitLines_headI (Z : Str) (h : defaultSentinel <+: Z) :
    pipeStart ((splitLines Z).headI) = true := by
  obtain ⟨t, ht⟩ := h
  have hd : defaultSentinel = '|' :: (" [archive/]").data := rfl
  rw [hd] at ht
  rw [List.cons_append] at ht
  rw [← ht]
  rw [splitLines_cons_ne '|' _ (by decide)]
  simp only [List.headI_cons]
  rw [pipeStart_cons]
  decide

theorem rowsOfLines_renders (toAdd : List IndexRow)
    (hrows : ∀ r ∈ toAdd, findLinkMatch (renderRow r) = some (r.title, r.path)) :
    rowsOfLines (toAdd.map renderRow) =
      toAdd.map (fun r => (⟨r.title, r.path, none⟩ : IndexRow)) := by
  induction toAdd with
  | nil => simp [rowsOfLines]
  | cons r t ih =>
    have hr := hrows r (List.mem_cons_self _ _)
    have ht := fun x hx => hrows x (List.mem_cons_of_mem _ hx)
    simp only [List.map_cons]
    show List.filterMap _ (renderRow r :: t.map renderRow) = _
    rw [List.filterMap_cons]
    rw [hr]
    simp only [Option.map_some']
    have hih : List.filterMap
        (fun l => (findLinkMatch l).map (fun tp => (⟨tp.1, tp.2, none⟩ : IndexRow)))
        (t.map renderRow) = t.map (fun r => (⟨r.title, r.path, none⟩ : IndexRow)) := ih ht
    rw [hih]

theorem stripMd_nil : stripMd [] = [] := by decide

theorem parse_flatJoin_block (lns : List Str) (Z : Str)
    (hlp : ∀ l ∈ lns, pipeStart l = true) (hln : ∀ l ∈ lns, '\n' ∉ l)
    (hzp : lns = [] → pipeStart ((splitLines Z).headI) = true) :
    parseTable (flatJoin lns ++ Z) =
      rowsOfLines lns ++ parseTableGo (splitLines Z) true [] := by
  unfold parseTable
  rw [splitLines_flatJoin_append lns Z hln]
  rw [parseTableGo_pipe_block (splitLines Z) lns false [] hlp]
  rw [List.nil_append]
  by_cases hE : lns = []
  · subst hE
    simp only [rowsOfLines, List.filterMap_nil, List.nil_append, List.isEmpty_nil,
      Bool.not_true, Bool.or_false]
    exact parseTableGo_false_true (splitLines Z) [] (splitLines_ne_nil Z) (hzp rfl)
  · have hne : lns.isEmpty = false := by simp [hE]
    rw [hne]
    simp only [Bool.not_false, Bool.or_true]
    rw [parseTableGo_acc]

theorem toAdd_rows_good (fs : FS) (root : Str) (cfg : DocsIndexKeeperConfig)
    (docs seed : List Str)
    (hgood : ∀ p ∈ docs, goodPath (stripDocsPrefix cfg.docsDir p)) :
    ∀ r ∈ computeNewRowsGo fs root cfg docs seed,
      findLinkMatch (renderRow r) = some (r.title, r.path) ∧ '\n' ∉ renderRow r := by
  intro r hr
  obtain ⟨p, hp, hpath, htitle, hpurp⟩ := cnrGo_shape fs root cfg docs seed r hr
  obtain ⟨h1, h2, h3, h4⟩ := hgood p hp
  have hq : r.path = stripDocsPrefix cfg.docsDir p := hpath
  have htq : r.title = stripMd (stripDocsPrefix cfg.docsDir p) := htitle
  have htitle_ne : r.title ≠ [] := by rw [htq]; exact h1
  have hpath_ne : r.path ≠ [] := by
    rw [hq]
    intro hnil
    rw [hnil] at h1
    exact h1 stripMd_nil
  have htitle_nb : ']' ∉ r.title := by
    rw [htq]
    intro hmem
    exact h2 (mem_stripMd_subset _ _ hmem)
  have hpath_nb : ')' ∉ r.path := by rw [hq]; exact h3
  have htitle_nn : '\n' ∉ r.title := by
    rw [htq]
    intro hmem
    exact h4 (mem_stripMd_subset _ _ hmem)
  have hpath_nn : '\n' ∉ r.path := by rw [hq]; exact h4
  have hpurp_nn : '\n' ∉ purposeOf r := by
    unfold purposeOf
    rw [hpurp]
    apply rowPurpose_no_nl
    apply mem_humanize_no_nl
    rw [← htq]
    exact htitle_nn
  refine ⟨findLinkMatch_renderRow r htitle_ne htitle_nb hpath_ne hpath_nb, ?_⟩
  intro hmem
  unfold renderRow at hmem
  simp only [List.mem_append] at hmem
  rcases hmem with ((((((h | h) | h) | h) | h) | h) | h)
  · exact absurd h (by decide)
  · exact htitle_nn h
  · exact absurd h (by decide)
  · exact hpath_nn h
  · exact absurd h (by decide)
  · exact hpurp_nn h
  · exact absurd h (by decide)

theorem canonical_insert_eq (lns : List Str) (Z : Str) (toAdd : List IndexRow)
    (hsentIdx : indexOfSub (flatJoin lns ++ Z) defaultSentinel =
      some (flatJoin lns).length)
    (hta : toAdd ≠ []) :
    insertRows (flatJoin lns ++ Z) toAdd defaultSentinel =
      flatJoin (lns ++ toAdd.map renderRow) ++ Z := by
  rw [insertRows_eq_offset,
    insertOffset_some (flatJoin lns ++ Z) defaultSentinel (flatJoin lns).length hsentIdx]
  rw [Int.toNat_natCast]
  rw [List.take_left, List.drop_left]
  rw [List.append_assoc]
  rw [joinNl_newline (toAdd.map renderRow) Z (by simp [hta])]
  rw [← List.append_assoc]
  rw [← flatJoin_append]

theorem canonical_parse_readme2 (lns : List Str) (Z : Str) (toAdd : List IndexRow)
    (hlp : ∀ l ∈ lns, pipeStart l = true) (hln : ∀ l ∈ lns, '\n' ∉ l)
    (hta : toAdd ≠ [])
    (hrows : ∀ r ∈ toAdd,
      findLinkMatch (renderRow r) = some (r.title, r.path) ∧ '\n' ∉ renderRow r) :
    parseTable (flatJoin (lns ++ toAdd.map renderRow) ++ Z) =
      rowsOfLines lns ++
        toAdd.map (fun r => (⟨r.title, r.path, none⟩ : IndexRow)) ++
        parseTableGo (splitLines Z) true [] := by
  have hlp2 : ∀ l ∈ lns ++ toAdd.map renderRow, pipeStart l = true := by
    intro l hl
    rcases List.mem_append.mp hl with h | h
    · exact hlp l h
    · rcases List.mem_map.mp h with ⟨r, _, hrr⟩
      rw [← hrr]
      exact pipeStart_renderRow r
  have hln2 : ∀ l ∈ lns ++ toAdd.map renderRow, '\n' ∉ l := by
    intro l hl
    rcases List.mem_append.mp hl with h | h
    · exact hln l h
    · rcases List.mem_map.mp h with ⟨r, hr, hrr⟩
      rw [← hrr]
      exact (hrows r hr).2
  have hzp : lns ++ toAdd.map renderRow = [] →
      pipeStart ((splitLines Z).headI) = true := by
    intro hE
    exact absurd (List.append_eq_nil.mp hE).2 (by simp [hta])
  rw [parse_flatJoin_block (lns ++ toAdd.map renderRow) Z hlp2 hln2 hzp]
  rw [show rowsOfLines (lns ++ toAdd.map renderRow) =
      rowsOfLines lns ++ rowsOfLines (toAdd.map renderRow) from
    List.filterMap_append _ _ _]
  rw [rowsOfLines_renders toAdd (fun r hr => (hrows r hr).1)]

theorem canonical_parse_readme (lns : List Str) (Z : Str)
    (hlp : ∀ l ∈ lns, pipeStart l = true) (hln : ∀ l ∈ lns, '\n' ∉ l)
    (hz : defaultSentinel <+: Z) :
    parseTable (flatJoin lns ++ Z) =
      rowsOfLines lns ++ parseTableGo (splitLines Z) true [] :=
  parse_flatJoin_block lns Z hlp hln (fun _ => pipeStart_splitLines_headI Z hz)

/- Under the canonical hypotheses, after a successful update every filtered
   candidate path is present with its docs prefix stripped among the parsed
   paths of the rewritten index document. -/
theorem canonical_after_cover (fs : FS) (root : Str) (cfg : DocsIndexKeeperConfig)
    (ov env : Option Str) (gitOut : Str) (lns : List Str) (Z : Str)
    (hread : fsRead fs (joinPath root cfg.indexFile) = flatJoin lns ++ Z)
    (hlp : ∀ l ∈ lns, pipeStart l = true)
    (hln : ∀ l ∈ lns, '\n' ∉ l)
    (hsentIdx : indexOfSub (flatJoin lns ++ Z) defaultSentinel =
      some (flatJoin lns).length)
    (hgood : ∀ p ∈ docsOf cfg ov env gitOut,
      goodPath (stripDocsPrefix cfg.docsDir p))
    (hupd : (update fs root cfg ov env gitOut).1.updated = true) :
    ∀ p ∈ docsOf cfg ov env gitOut,
      stripDocsPrefix cfg.docsDir p ∈
        existingOf (update fs root cfg ov env gitOut).2 root cfg := by
  obtain ⟨hdocs, hex, htaE, hequ⟩ := update_of_true fs root cfg ov env gitOut hupd
  have hta : toAddOf fs root cfg ov env gitOut ≠ [] := by
    intro h
    rw [h] at htaE
    simp at htaE
  have hz : defaultSentinel <+: Z := by
    have hpre := indexOfSub_found _ _ _ hsentIdx
    rw [List.drop_left] at hpre
    exact List.isPrefixOf_iff_prefix.mp hpre
  have hrows : ∀ r ∈ toAddOf fs root cfg ov env gitOut,
      findLinkMatch (renderRow r) = some (r.title, r.path) ∧ '\n' ∉ renderRow r :=
    toAdd_rows_good fs root cfg (docsOf cfg ov env gitOut)
      (existingOf fs root cfg) hgood
  have hreadIdx : fsRead fs (indexPathOf root cfg) = flatJoin lns ++ Z := hread
  have hins : insertRows (fsRead fs (indexPathOf root cfg))
      (toAddOf fs root cfg ov env gitOut) defaultSentinel =
      flatJoin (lns ++ (toAddOf fs root cfg ov env gitOut).map renderRow) ++ Z := by
    rw [hreadIdx]
    exact canonical_insert_eq lns Z _ hsentIdx hta
  intro p hp
  have hfs2 : (update fs root cfg ov env gitOut).2 =
      fsWrite fs (indexPathOf root cfg)
        (insertRows (fsRead fs (indexPathOf root cfg))
          (toAddOf fs root cfg ov env gitOut) defaultSentinel) := by
    rw [hequ]
  unfold existingOf
  rw [hfs2]
  have hrd : fsRead (fsWrite fs (indexPathOf root cfg)
      (insertRows (fsRead fs (indexPathOf root cfg))
        (toAddOf fs root cfg ov env gitOut) defaultSentinel))
      (indexPathOf root cfg) =
      flatJoin (lns ++ (toAddOf fs root cfg ov env gitOut).map renderRow) ++ Z := by
    rw [fsRead_write_self, hins]
  rw [hrd]
  rw [canonical_parse_readme2 lns Z _ hlp hln hta hrows]
  have hcover := cnrGo_cover fs root cfg (docsOf cfg ov env gitOut)
    (existingOf fs root cfg) p hp
  rcases hcover with hmem | hmem
  · unfold existingOf at hmem
    rw [hreadIdx, canonical_parse_readme lns Z hlp hln hz, List.map_append,
      List.mem_append] at hmem
    rw [List.map_append, List.map_append, List.mem_append, List.mem_append]
    rcases hmem with h | h
    · exact Or.inl (Or.inl h)
    · exact Or.inr h
  · rw [List.map_append, List.map_append, List.mem_append, List.mem_append,
      List.map_map]
    have hcomp : ((fun r : IndexRow => r.path) ∘ fun r : IndexRow =>
        (⟨r.title, r.path, none⟩ : IndexRow)) = (fun r : IndexRow => r.path) := rfl
    rw [hcomp]
    exact Or.inl (Or.inr hmem)

/-- Claim C1, counterexample: a configuration, repository state and
candidate set on which update reports a change with a non-empty added
list, check beforehand returns false as the claim demands, yet check after
update has persisted the index still returns false: the fallback splice at
the blank-line pair glues the new row onto the previous table line, so the
parser cannot read it back. -/
theorem claim_C1_counterexample :
    (update fs0 rootC cfgC ovC none []).1.updated = true ∧
    (update fs0 rootC cfgC ovC none []).1.added ≠ [] ∧
    (check fs0 rootC cfgC ovC none []).1 = false ∧
    (check (update fs0 rootC cfgC ovC none []).2 rootC cfgC ovC none []).1 = false := by
  exact ⟨by decide, by decide, by decide, by decide⟩

/-- Claim C1, amended: the first half holds unconditionally: whenever
update reports a change, check beforehand with the same candidates returns
false.  The second half holds for well-formed index documents and
candidates: when the document consists of newline-free lines that all start
with a pipe followed by a suffix whose first occurrence of the sentinel is
exactly at that boundary, and every filtered candidate strips to a
non-empty docs-relative path free of closing brackets, closing parentheses
and newlines, then check after update has persisted the index returns
true. -/
theorem claim_C1 (fs : FS) (root : Str) (cfg : DocsIndexKeeperConfig)
    (ov env : Option Str) (gitOut : Str) (lns : List Str) (Z : Str)
    (hread : fsRead fs (joinPath root cfg.indexFile) = flatJoin lns ++ Z)
    (hlp : ∀ l ∈ lns, pipeStart l = true)
    (hln : ∀ l ∈ lns, '\n' ∉ l)
    (hsentIdx : indexOfSub (flatJoin lns ++ Z) defaultSentinel =
      some (flatJoin lns).length)
    (hgood : ∀ p ∈ docsOf cfg ov env gitOut,
      goodPath (stripDocsPrefix cfg.docsDir p))
    (hupd : (update fs root cfg ov env gitOut).1.updated = true) :
    (check fs root cfg ov env gitOut).1 = false ∧
    (check (update fs root cfg ov env gitOut).2 root cfg ov env gitOut).1 = true := by
  obtain ⟨hdocs, hex, htaE, hequ⟩ := update_of_true fs root cfg ov env gitOut hupd
  constructor
  · have hcond : ((docsOf cfg ov env gitOut).isEmpty ||
        !(fsExists fs (indexPathOf root cfg))) = false := by
      rw [hdocs, hex]
      rfl
    rw [check_eq, hcond]
    simp only [Bool.false_eq_true, if_false]
    show (docsOf cfg ov env gitOut).all _ = false
    apply List.all_eq_false.mpr
    have hta : toAddOf fs root cfg ov env gitOut ≠ [] := by
      intro h
      rw [h] at htaE
      simp at htaE
    obtain ⟨p, hp, hpc⟩ := cnrGo_exists_of_ne_nil fs root cfg
      (docsOf cfg ov env gitOut) (existingOf fs root cfg) hta
    exact ⟨p, hp, fun hmem => by rw [hpc] at hmem; exact absurd hmem (by simp)⟩
  · have hcov := canonical_after_cover fs root cfg ov env gitOut lns Z hread hlp hln
      hsentIdx hgood hupd
    have hex2 : fsExists (update fs root cfg ov env gitOut).2
        (indexPathOf root cfg) = true := by
      rw [hequ]
      exact fsExists_write_self _ _ _
    have hcond2 : ((docsOf cfg ov env gitOut).isEmpty ||
        !(fsExists (update fs root cfg ov env gitOut).2 (indexPathOf root cfg))) =
        false := by
      rw [hdocs, hex2]
      rfl
    rw [check_eq, hcond2]
    simp only [Bool.false_eq_true, if_false]
    show (docsOf cfg ov env gitOut).all _ = true
    apply List.all_eq_true.mpr
    intro p hp
    exact (contains_eq_true_iff _ _).mpr (hcov p hp)

theorem claim_C1_witness :
    (fsRead fsS (joinPath rootC cfgC.indexFile) = flatJoin lnsS ++ zS ∧
     (∀ l ∈ lnsS, pipeStart l = true) ∧ (∀ l ∈ lnsS, '\n' ∉ l) ∧
     indexOfSub (flatJoin lnsS ++ zS) defaultSentinel =
       some (flatJoin lnsS).length ∧
     (∀ p ∈ docsOf cfgC ovC none [],
       goodPath (stripDocsPrefix cfgC.docsDir p)) ∧
     (update fsS rootC cfgC ovC none []).1.updated = true) ∧
    ((check fsS rootC cfgC ovC none []).1 = false ∧
     (check (update fsS rootC cfgC ovC none []).2 rootC cfgC ovC none []).1 = true) :=
  ⟨⟨by decide, by decide, by decide, by decide, by decide, by decide⟩,
   claim_C1 fsS rootC cfgC ovC none [] lnsS zS (by decide) (by decide) (by decide)
     (by decide) (by decide) (by decide)⟩

/-- Claim C2, counterexample: after one update run on a document without a
sentinel, a second run with the same staged files reports a change again
and rewrites the index document, which is therefore not byte-identical:
the glued row from the first run is invisible to the parser, so it is
added a second time. -/
theorem claim_C2_counterexample :
    (update fs1C rootC cfgC ovC none []).1.updated = true ∧
    fsRead (update fs1C rootC cfgC ovC none []).2 idxC ≠ fsRead fs1C idxC := by
  exact ⟨by decide, by decide⟩

/-- Claim C2, amended: under the same well-formedness hypotheses on the
index document and the candidates as in the round-trip property, running
update twice in a row with the same staged files leaves the file system of
the first run untouched: the second run reports no change with an empty
added list and performs no write, so the index document is byte-identical
after the second run. -/
theorem claim_C2 (fs : FS) (root : Str) (cfg : DocsIndexKeeperConfig)
    (ov env : Option Str) (gitOut : Str) (lns : List Str) (Z : Str)
    (hread : fsRead fs (joinPath root cfg.indexFile) = flatJoin lns ++ Z)
    (hlp : ∀ l ∈ lns, pipeStart l = true)
    (hln : ∀ l ∈ lns, '\n' ∉ l)
    (hsentIdx : indexOfSub (flatJoin lns ++ Z) defaultSentinel =
      some (flatJoin lns).length)
    (hgood : ∀ p ∈ docsOf cfg ov env gitOut,
      goodPath (stripDocsPrefix cfg.docsDir p)) :
    update (update fs root cfg ov env gitOut).2 root cfg ov env gitOut =
      (⟨false, []⟩, (update fs root cfg ov env gitOut).2) := by
  cases hupd : (update fs root cfg ov env gitOut).1.updated with
  | false =>
    have h1 := update_of_false fs root cfg ov env gitOut hupd
    rw [h1]
    exact h1
  | true =>
    have hcov := canonical_after_cover fs root cfg ov env gitOut lns Z hread hlp hln
      hsentIdx hgood hupd
    have htoAdd2 : toAddOf (update fs root cfg ov env gitOut).2 root cfg ov env
        gitOut = [] := by
      show computeNewRowsGo (update fs root cfg ov env gitOut).2 root cfg
        (docsOf cfg ov env gitOut)
        (existingOf (update fs root cfg ov env gitOut).2 root cfg) = []
      apply cnrGo_nil_of_all
      intro p hp
      exact hcov p hp
    rcases update_characterize (update fs root cfg ov env gitOut).2 root cfg ov env
      gitOut with hc | ⟨_, _, hta2, _⟩
    · exact hc
    · rw [htoAdd2] at hta2
      simp at hta2

theorem claim_C2_witness :
    (fsRead fsS (joinPath rootC cfgC.indexFile) = flatJoin lnsS ++ zS ∧
     (∀ l ∈ lnsS, pipeStart l = true) ∧ (∀ l ∈ lnsS, '\n' ∉ l) ∧
     indexOfSub (flatJoin lnsS ++ zS) defaultSentinel =
       some (flatJoin lnsS).length ∧
     (∀ p ∈ docsOf cfgC ovC none [],
       goodPath (stripDocsPrefix cfgC.docsDir p))) ∧
    update (update fsS rootC cfgC ovC none []).2 rootC cfgC ovC none [] =
      (⟨false, []⟩, (update fsS rootC cfgC ovC none []).2) :=
  ⟨⟨by decide, by decide, by decide, by decide, by decide⟩,
   claim_C2 fsS rootC cfgC ovC none [] lnsS zS (by decide) (by decide) (by decide)
     (by decide) (by decide)⟩
